import Mathlib

set_option maxHeartbeats 1000000

namespace FluxGate

/-!  Embedding of the FluxGate vector index
     (source: src/semantic_router/index/faiss.py, class `FaissIndex`).

Vectors are modelled over `ℚ` (exact rational arithmetic stands in for the
float32 computations), a metadata dict as an association list, and the mutable
pydantic object as an explicit `IndexState` record.  `None`-valued fields are
`Option.none`; the faiss `IndexFlatL2` object is represented by the list of its
stored vectors (its `reconstruct_n` view) together with the `dimension` field.
-/

/-- Metadata dicts are stored and filtered but never inspected by the index;
an association list of strings models one dict. -/
abbrev Meta := List (String × String)

/-- Raise sites of the index operations.  Python raises `ValueError` at most of
these sites; the constructors separate the raise sites, following the spec's
error taxonomy (`NotPopulated`, `NoMatchingRoutes`, `DimensionMismatch`). -/
inductive IndexErr
  /-- `ValueError("Index or routes are not populated.")` in `query`, and the
  corresponding guard in `delete` / `_remove_and_sync`. -/
  | notPopulated
  /-- `ValueError("No routes found matching the filter criteria.")`. -/
  | noMatchingRoutes
  /-- `ValueError("Embedding dimension mismatch: ...")` in `add`, and the
  `ValueError` numpy raises converting a ragged batch with `dtype=float32`. -/
  | dimensionMismatch
  /-- `ValueError` raised by numpy when `bool()` is taken of a multi-element
  array (`if not delete_idx:` in `delete`). -/
  | valueError
  /-- Python `IndexError` (out-of-range list/array indexing). -/
  | indexError
  /-- faiss's dimensionality assertion in `Index.search`. -/
  | runtimeError
  deriving DecidableEq, Repr

/-- The mutable state of a `FaissIndex` object: `dimension`, the faiss index
(`vectors`, `none` when `self.index is None`), and the three parallel arrays. -/
structure IndexState where
  dimension : Option ℕ
  vectors : Option (List (List ℚ))
  routes : Option (List String)
  utterances : Option (List String)
  metadata : Option (List Meta)
  deriving DecidableEq, Repr

/-- A fresh `FaissIndex()`: every field is `None` (`BaseIndex`, which is not
under src/, defaults `index`, `routes` and `utterances` to `None`; the spec
says the index holds zero records before the first `add`). -/
def initState : IndexState := ⟨none, none, none, none, none⟩

/-- `np.where(arr == name)[0]`: the ascending positions holding `name`. -/
def matchIdx (R : List String) (name : String) : List ℕ :=
  (List.range R.length).filter (fun i => R.getD i "" == name)

/-- Boolean-mask filtering `arr[mask]`: keep the entries whose absolute
position satisfies `p` (the first argument is the position of the head). -/
def keepIdx (p : ℕ → Bool) : ℕ → List α → List α
  | _, [] => []
  | i, a :: as => if p i then a :: keepIdx p (i + 1) as else keepIdx p (i + 1) as

/-- numpy integer-array fancy indexing `l[idxs]` (nonnegative indices); any
out-of-range entry raises `IndexError`. -/
def selE (l : List α) (idxs : List ℕ) : Except IndexErr (List α) :=
  match idxs.mapM l.get? with
  | some r => .ok r
  | none => .error .indexError

/-- Total selection `l[idxs]` for in-range index lists (used to state the
candidate-pool restriction the spec describes). -/
def sel (l : List α) (idxs : List ℕ) : List α := idxs.filterMap l.get?

/-- Python/numpy scalar indexing `l[i]`, with negative indices counting from
the end; out of range raises `IndexError`. -/
def npGetE (l : List α) (i : ℤ) : Except IndexErr α :=
  if 0 ≤ i then
    match l.get? i.toNat with
    | some a => .ok a
    | none => .error .indexError
  else
    let k := (-i).toNat
    if k ≤ l.length then
      match l.get? (l.length - k) with
      | some a => .ok a
      | none => .error .indexError
    else .error .indexError

/-- float32 `FLT_MAX = (2 - 2 ^ (-23)) * 2 ^ 127`, the heap-initialisation
value faiss leaves in the result slots that received no neighbour. -/
def FLT_MAX : ℚ := (2 : ℚ) ^ 128 - 2 ^ 104

/-- Squared L2 distance — the quantity `faiss.IndexFlatL2.search` reports. -/
def l2sq (q v : List ℚ) : ℚ := (List.zipWith (fun a b => (a - b) * (a - b)) q v).sum

/-- Ordering of (position, squared distance) candidates in the flat scan:
ascending distance, ties resolved toward the smaller stored position (faiss
leaves the tie order unspecified; the model fixes it deterministically). -/
def distR (a b : ℕ × ℚ) : Prop := a.2 < b.2 ∨ (a.2 = b.2 ∧ a.1 ≤ b.1)

instance : DecidableRel distR := fun a b => by unfold distR; infer_instance

instance : IsTotal (ℕ × ℚ) distR :=
  ⟨fun a b => by
    unfold distR
    rcases lt_trichotomy a.2 b.2 with h | h | h
    · exact Or.inl (Or.inl h)
    · rcases le_total a.1 b.1 with h' | h'
      · exact Or.inl (Or.inr ⟨h, h'⟩)
      · exact Or.inr (Or.inr ⟨h.symm, h'⟩)
    · exact Or.inr (Or.inl h)⟩

instance : IsTrans (ℕ × ℚ) distR :=
  ⟨fun a b c hab hbc => by
    unfold distR at *
    rcases hab with h | ⟨he, hi⟩
    · rcases hbc with h' | ⟨he', _⟩
      · exact Or.inl (h.trans h')
      · exact Or.inl (he' ▸ h)
    · rcases hbc with h' | ⟨he', hi'⟩
      · exact Or.inl (he ▸ h')
      · exact Or.inr ⟨he.trans he', hi.trans hi'⟩⟩

/-- `index.search(q.reshape(1, -1), k)` on a flat L2 index holding `V`:
exactly `k` (squared distance, label) rows, sorted by ascending distance; when
fewer than `k` vectors are stored, the remaining rows are padded with the
sentinel `(FLT_MAX, -1)`. -/
def faissSearch (V : List (List ℚ)) (q : List ℚ) (k : ℕ) : List (ℚ × ℤ) :=
  let cand := (List.range V.length).map (fun i => (i, l2sq q (V.getD i [])))
  let sorted := cand.insertionSort distR
  let top := (sorted.take k).map (fun p => (p.2, (p.1 : ℤ)))
  top ++ List.replicate (k - top.length) (FLT_MAX, -1)

/-- `np.array(embeddings, dtype=np.float32)` succeeds iff all rows share one
length. -/
def commonDim : List (List ℚ) → Bool
  | [] => true
  | v :: vs => vs.all (fun w => w.length == v.length)

/-- The `{}` placeholder dict. -/
def emptyMeta : Meta := []

/-- `np.array(metadata_list, dtype=object) if metadata_list else
np.array([{} for _ in utterances], dtype=object)`. -/
def defaultMeta (metaList : List Meta) (n : ℕ) : List Meta :=
  if metaList.isEmpty then List.replicate n emptyMeta else metaList

/-- `FaissIndex.add`.  Returns the state after the call paired with the raised
exception, if any (Python mutates `self` in place, so an exception raised
after a mutation leaves that mutation behind). -/
def add (s : IndexState) (embeddings : List (List ℚ)) (routes utterances : List String)
    (metaList : List Meta) : IndexState × Option IndexErr :=
  -- np.array(embeddings, dtype=np.float32): ValueError on a ragged batch
  if !commonDim embeddings then (s, some .dimensionMismatch)
  -- isinstance(utterances[0], str): IndexError on an empty list
  else if utterances.isEmpty then (s, some .indexError)
  -- embeds.shape[1] (in either branch): IndexError when embeddings is empty
  else if embeddings.isEmpty then (s, some .indexError)
  else
    match s.vectors with
    | none =>
        (⟨some (embeddings.headD []).length, some embeddings, some routes,
          some utterances, some (defaultMeta metaList utterances.length)⟩, none)
    | some V =>
        -- `if embeds.shape[1] != self.dimension: raise ValueError(...)`
        if some (embeddings.headD []).length ≠ s.dimension then
          (s, some .dimensionMismatch)
        else
          -- `self.index.add(embeds)` happens first, then the three parallel
          -- arrays are extended
          match s.routes, s.utterances with
          | some R, some U =>
              (⟨s.dimension, some (V ++ embeddings), some (R ++ routes),
                some (U ++ utterances),
                some (match s.metadata with
                  | some M => M ++ defaultMeta metaList utterances.length
                  | none => defaultMeta metaList utterances.length)⟩, none)
          -- np.concatenate with a `None` operand raises after the faiss
          -- insert happened: the vectors keep the new batch
          | _, _ => ({ s with vectors := some (V ++ embeddings) }, some .valueError)

/-- `FaissIndex.delete`.  The guard `if not delete_idx:` takes the Python truth
value of a numpy integer array: an array with two or more elements raises
`ValueError` ("truth value ... is ambiguous"), a one-element array is falsy
exactly when its element is `0`, and an empty array is falsy. -/
def delete (s : IndexState) (name : String) : IndexState × Option IndexErr :=
  match s.vectors, s.routes, s.utterances with
  | some V, some R, some U =>
      match matchIdx R name with
      | [] => (s, none)              -- `not delete_idx` is True: early return
      | [i] =>
          if i == 0 then (s, none)   -- bool(array([0])) is False: early return
          -- `reconstruct_n(...)[mask]`: IndexError if the mask length differs
          else if R.length ≠ V.length then (s, some .indexError)
          else
            (⟨s.dimension, some (keepIdx (fun j => j != i) 0 V),
              some (keepIdx (fun j => j != i) 0 R),
              some (keepIdx (fun j => j != i) 0 U),
              s.metadata.map (keepIdx (fun j => j != i) 0)⟩, none)
      | _ => (s, some .valueError)   -- bool() of a multi-element array raises
  | _, _, _ =>
      -- "Attempted to delete route records but either index, routes or
      -- utterances is None."
      (s, some .notPopulated)

/-- `FaissIndex.delete_index`: every field is reset to `None`. -/
def deleteIndex (_s : IndexState) : IndexState := initState

/-- `FaissIndex._remove_and_sync`: one keep-mask over the (route, utterance)
rows drops every pair listed in `toDelete`; the mask filters the vectors and
all three parallel arrays; the removed pairs are returned. -/
def removeAndSync (s : IndexState) (toDelete : List (String × List String)) :
    Except IndexErr (IndexState × List (String × String)) :=
  match s.vectors, s.routes, s.utterances with
  | some V, some R, some U =>
      let keep : ℕ → Bool := fun i =>
        !(toDelete.any (fun ru => R.getD i "" == ru.1 && ru.2.contains (U.getD i "")))
      let removed := ((List.range R.length).filter (fun i => !(keep i))).map
        (fun i => (R.getD i "", U.getD i ""))
      .ok (⟨s.dimension, some (keepIdx keep 0 V), some (keepIdx keep 0 R),
            some (keepIdx keep 0 U), s.metadata.map (keepIdx keep 0)⟩, removed)
  | _, _, _ => .error .notPopulated  -- "Index, routes, or utterances are not populated."

/-- `FaissIndex.__len__`: `self.index.ntotal`, or `0` when the index is `None`. -/
def lenIndex (s : IndexState) : ℕ :=
  match s.vectors with
  | some V => V.length
  | none => 0

/-- `FaissIndex.query`.  The reachable states keep the faiss object's
dimensionality equal to `s.dimension`, which the faiss `search` assertion
checks against the query vector. -/
def query (s : IndexState) (vector : List ℚ) (topK : ℕ)
    (routeFilter : Option (List String)) : Except IndexErr (List ℚ × List String) :=
  match s.vectors, s.routes with
  | some V, some R =>
      match routeFilter with
      | some f =>
          let fidx := (List.range R.length).filter (fun i => f.contains (R.getD i ""))
          if fidx.isEmpty then .error .noMatchingRoutes
          else do
            -- sub_embeds = self.index.reconstruct_n(0, ntotal)[filter_indices]
            let subV ← selE V fidx
            -- sub_index.search asserts the query dimensionality
            if vector.length ≠ s.dimension.getD 0 then throw .runtimeError else
            let res := faissSearch subV vector topK
            let scores := res.map (fun p => 1 / (1 + p.1))
            -- original_idx = filter_indices[sub_idx]
            let origIdx ← res.mapM (fun p => npGetE fidx p.2)
            -- route_names = [self.routes[i] for i in original_idx]
            let names ← origIdx.mapM (fun i : ℕ => npGetE R (i : ℤ))
            return (scores, names)
      | none => do
          if vector.length ≠ s.dimension.getD 0 then throw .runtimeError else
          let res := faissSearch V vector topK
          let scores := res.map (fun p => 1 / (1 + p.1))
          -- route_names = [self.routes[i] for i in idx]
          let names ← res.mapM (fun p => npGetE R p.2)
          return (scores, names)
  | _, _ => .error .notPopulated  -- "Index or routes are not populated."

/-- `FaissIndex.get_vector_by_utterance`. -/
def getVectorByUtterance (s : IndexState) (utterance : String) : Option (List ℚ) :=
  match s.vectors, s.utterances with
  | some V, some U =>
      match matchIdx U utterance with
      | [] => none
      | i :: _ => V.get? i   -- self.index.reconstruct(int(indices[0]))
  | _, _ => none

/-- `FaissIndex.get_utterance_by_vector`. -/
def getUtteranceByVector (s : IndexState) (vector : List ℚ) (topK : ℕ) :
    Except IndexErr (List (String × ℚ)) :=
  match s.vectors, s.utterances with
  | some V, some U =>
      if vector.length ≠ s.dimension.getD 0 then .error .runtimeError else
      (faissSearch V vector topK).mapM (fun p => do
        let u ← npGetE U p.2
        return (u, 1 / (1 + p.1)))
  | _, _ => .ok []

/-- The public index operations (the spec's `add` / `delete` / `delete_index` /
`query` interface). -/
inductive Op
  | add (e : List (List ℚ)) (r u : List String) (m : List Meta)
  | delete (name : String)
  | deleteIndex
  | query (q : List ℚ) (k : ℕ) (f : Option (List String))

/-- The state after an operation: a raised exception leaves the state exactly
as the call left it, and `query` never mutates. -/
def step (s : IndexState) : Op → IndexState
  | .add e r u m => (add s e r u m).1
  | .delete name => (delete s name).1
  | .deleteIndex => deleteIndex s
  | .query _ _ _ => s

/-- The state reached by a sequence of operations on a fresh index. -/
def run (ops : List Op) : IndexState := ops.foldl step initState

/-- Equal-length inputs to `add`, as the lockstep claim assumes. -/
def opWF : Op → Prop
  | .add e r u m =>
      e.length = r.length ∧ r.length = u.length ∧ (m = [] ∨ m.length = u.length)
  | _ => True

/-- The spec's lockstep invariant: the three parallel arrays and the ANN
structure hold the same number of entries (an uninitialized index holds no
containers at all). -/
def lockstep (s : IndexState) : Prop :=
  match s.vectors, s.routes, s.utterances, s.metadata with
  | some V, some R, some U, some M =>
      V.length = R.length ∧ R.length = U.length ∧ U.length = M.length
  | none, none, none, none => True
  | _, _, _, _ => False

/-- The candidate-pool restriction the spec describes for `route_filter`:
keep exactly the records whose route belongs to the filter set (same order,
all four containers filtered together).  Modelled from the spec's words to be
compared with the implementation's filtered `query`. -/
def restrictPool (s : IndexState) (f : List String) : IndexState :=
  match s.vectors, s.routes, s.utterances with
  | some V, some R, some U =>
      let fidx := (List.range R.length).filter (fun i => f.contains (R.getD i ""))
      ⟨s.dimension, some (sel V fidx), some (sel R fidx), some (sel U fidx),
        s.metadata.map (fun M => sel M fidx)⟩
  | _, _, _ => s

instance {ε α : Type} [DecidableEq ε] [DecidableEq α] : DecidableEq (Except ε α) := fun
  | .ok a, .ok b =>
      if h : a = b then .isTrue (by rw [h])
      else .isFalse (by intro he; cases he; exact h rfl)
  | .ok _, .error _ => .isFalse (by intro h; cases h)
  | .error _, .ok _ => .isFalse (by intro h; cases h)
  | .error e, .error e' =>
      if h : e = e' then .isTrue (by rw [h])
      else .isFalse (by intro he; cases he; exact h rfl)

/-!  Embedding of the embedding client
     (source: src/semantic_router/encoders/siliconflow.py,
      class `SiliconFlowEncoder`).

A document is modelled by its token sequence (so `encode_ordinary` / `decode`
is the identity on the model's view), an embedding by a `List ℚ`, and the
provider by an oracle giving the outcome of each `embeddings.create` call.
-/

/-- `siliconflow_model_configs`: token limit of each known model name. -/
def siliconflowModelConfigs : List (String × ℕ) :=
  [("BAAI/bge-large-zh-v1.5", 512),
   ("BAAI/bge-base-zh-v1.5", 512),
   ("BAAI/bge-small-zh-v1.5", 512),
   ("BAAI/bge-large-en-v1.5", 512),
   ("text-embedding-ada-002", 8192),
   ("text-embedding-3-small", 8192),
   ("text-embedding-3-large", 8192)]

/-- The fields of a constructed `SiliconFlowEncoder` that the claims touch. -/
structure SFEncoder where
  name : String
  /-- `token_limit`, class default `8192`. -/
  token_limit : ℕ
  /-- whether `__init__` assigned the `_token_encoder` private attribute
  (`hasattr(self, '_token_encoder')` in `_truncate`). -/
  hasTokenEncoder : Bool
  max_retries : ℕ
  deriving DecidableEq, Repr

/-- The token-limit / tokenizer part of `SiliconFlowEncoder.__init__`:
for a known model name only `token_limit` is set; the tiktoken
`_token_encoder` is created only in the `else` branch, i.e. only when the
model name is NOT in `siliconflow_model_configs`. -/
def mkEncoder (name : String) (maxRetries : ℕ) : SFEncoder :=
  match siliconflowModelConfigs.lookup name with
  | some limit =>
      { name := name, token_limit := limit, hasTokenEncoder := false,
        max_retries := maxRetries }
  | none =>
      { name := name, token_limit := 8192, hasTokenEncoder := true,
        max_retries := maxRetries }

/-- `SiliconFlowEncoder._truncate` on the token view of a document: without a
`_token_encoder` attribute the text is returned unchanged; otherwise a
document longer than `token_limit` keeps its first `token_limit - 1` tokens. -/
def truncate (enc : SFEncoder) (tokens : List ℕ) : List ℕ :=
  if !enc.hasTokenEncoder then tokens
  else if enc.token_limit < tokens.length then tokens.take (enc.token_limit - 1)
  else tokens

/-- Outcome of one `self._client.embeddings.create(...)` call: a response
carrying `data` (possibly empty), an `OpenAIError` (the transient case), or
any other exception (the fatal case). -/
inductive APIOutcome
  | ok (data : List (List ℚ))
  | openaiErr
  | otherErr
  deriving DecidableEq, Repr

/-- Failure signals of `SiliconFlowEncoder.__call__`. -/
inductive EncodeErr
  /-- the `OpenAIError` re-raised once retries are exhausted. -/
  | openaiError
  /-- `ValueError("SiliconFlow API call failed. ...")` wrapping a
  non-`OpenAIError` exception. -/
  | apiCallFailed
  /-- `ValueError("No embeddings returned.")`. -/
  | noEmbeddings
  deriving DecidableEq, Repr

/-- The per-batch retry loop `for j in range(self.max_retries + 1)` of
`__call__`.  `oracle j` is the outcome of attempt `j`, `embeds` the Python
loop variable holding the last response, and `sleeps` the backoff sleeps (in
seconds) performed so far, in order. -/
def batchAttempts (oracle : ℕ → APIOutcome) (maxRetries : ℕ) (j : ℕ)
    (embeds : Option (List (List ℚ))) (sleeps : List ℕ) :
    Except EncodeErr (Option (List (List ℚ))) × List ℕ :=
  if maxRetries + 1 ≤ j then (.ok embeds, sleeps)
  else
    match oracle j with
    | .ok data =>
        if data.isEmpty then batchAttempts oracle maxRetries (j + 1) (some data) sleeps
        else (.ok (some data), sleeps)                    -- `if embeds.data: break`
    | .openaiErr =>
        if maxRetries ≠ 0 ∧ j < maxRetries then           -- sleep(2**j) and retry
          batchAttempts oracle maxRetries (j + 1) embeds (sleeps ++ [2 ^ j])
        else (.error .openaiError, sleeps)                -- `else: raise`
    | .otherErr => (.error .apiCallFailed, sleeps)        -- non-transient: abort
  termination_by maxRetries + 1 - j
  decreasing_by all_goals omega

/-- One batch of `__call__`: the retry loop followed by the
`"No embeddings returned."` post-check. -/
def runBatch (oracle : ℕ → APIOutcome) (maxRetries : ℕ) :
    Except EncodeErr (List (List ℚ)) × List ℕ :=
  match batchAttempts oracle maxRetries 0 none [] with
  | (.error e, sleeps) => (.error e, sleeps)
  | (.ok none, sleeps) => (.error .noEmbeddings, sleeps)
  | (.ok (some data), sleeps) =>
      if data.isEmpty then (.error .noEmbeddings, sleeps) else (.ok data, sleeps)

/-- The batching `for i in range(0, len(docs), batch_size)` with
`batch_size = 30`. -/
def chunks30 : List α → List (List α)
  | [] => []
  | a :: as => (a :: as).take 30 :: chunks30 ((a :: as).drop 30)
  termination_by l => l.length
  decreasing_by simp [List.length_drop]; omega

/-- All batches of `__call__` in order; the first exception aborts the whole
call and the accumulated `all_embeddings` list is discarded with it. -/
def encodeBatches (oracle : ℕ → ℕ → APIOutcome) (maxRetries : ℕ) (n : ℕ) :
    Except EncodeErr (List (List ℚ)) :=
  (List.range n).foldlM (fun acc b =>
    match (runBatch (oracle b) maxRetries).1 with
    | .ok data => .ok (acc ++ data)
    | .error e => .error e) []

/-- `SiliconFlowEncoder.__call__` with `truncate=True`: truncate every
document, split into batches of 30, and run every batch through the retry
loop; `oracle b j` abstracts the provider response to attempt `j` at batch
`b`. -/
def encodeCall (enc : SFEncoder) (oracle : ℕ → ℕ → APIOutcome)
    (docs : List (List ℕ)) : Except EncodeErr (List (List ℚ)) :=
  encodeBatches oracle enc.max_retries (chunks30 (docs.map (truncate enc))).length

/-!  Embedding of the manual threshold grid search
     (source: src/app/model_trainer.py, class `IntentRouterTrainer`).

The evaluation of one candidate threshold rebuilds a route-local router and
measures accuracy over the whole evaluation set; the measurement is abstracted
by `acc : ℚ → Option ℚ` (`none` models an exception inside the `try`, which
the loop catches and skips).
-/

/-- `np.linspace(lo, hi, 20)` in exact rational arithmetic. -/
def searchRange (lo hi : ℚ) : List ℚ :=
  (List.range 20).map (fun i : ℕ => lo + (hi - lo) * (i : ℚ) / 19)

/-- `IntentRouterTrainer._evaluate_router_with_temp`: accuracy (in percent)
over the whole evaluation set; `routeOf q` abstracts `temp_router(query).name`
(`none` when no route is returned or the call raises). -/
def evaluateRouterWithTemp (routeOf : String → Option String)
    (testData : List (String × String)) : ℚ :=
  let correct := (testData.filter (fun qi => routeOf qi.1 == some qi.2)).length
  if testData.isEmpty then 0 else (correct : ℚ) / testData.length * 100

/-- The body of the candidate loop in `_find_best_threshold`: a candidate
replaces the running best only on `accuracy > best_accuracy` (strict), and a
candidate whose evaluation raised (`acc t = none`) is skipped. -/
def bestStep (acc : ℚ → Option ℚ) (best : ℚ × ℚ) (t : ℚ) : ℚ × ℚ :=
  match acc t with
  | some a => if best.2 < a then (t, a) else best
  | none => best

/-- `IntentRouterTrainer._find_best_threshold`: 20-point grid over
`[0.8 * min(scores), 1.2 * max(scores)]`, folded with `bestStep` starting
from `(current_threshold, 0)`. -/
def findBestThreshold (scores : List ℚ) (currentThreshold : ℚ)
    (acc : ℚ → Option ℚ) : ℚ × ℚ :=
  match scores with
  | [] => (currentThreshold, 0)
  | s :: rest =>
      (searchRange ((rest.foldl min s) * (8 / 10))
        ((rest.foldl max s) * (12 / 10))).foldl (bestStep acc)
        (currentThreshold, 0)

/-- The running maximum of the observed accuracies (the second component of
the running best), used to state what the grid search selects. -/
def maxStep (acc : ℚ → Option ℚ) (b t : ℚ) : ℚ :=
  match acc t with
  | some a => max b a
  | none => b

/-- The best accuracy the grid search can observe (0 when every candidate is
skipped or scores 0). -/
def bestAcc (grid : List ℚ) (acc : ℚ → Option ℚ) : ℚ :=
  grid.foldl (maxStep acc) 0

/-!  Helper lemmas -/

theorem commonDim_all {e : List (List ℚ)} (h : commonDim e = true) :
    ∀ v ∈ e, v.length = (e.headD []).length := by
  cases e with
  | nil => intro v hv; cases hv
  | cons w ws =>
      have h' : ∀ x ∈ ws, x.length = w.length := by
        simpa [commonDim, List.all_eq_true] using h
      intro v hv
      rcases List.mem_cons.mp hv with rfl | hv
      · rfl
      · simpa using h' v hv

theorem keepIdx_length_congr (p : ℕ → Bool) :
    ∀ (i : ℕ) (l₁ : List α) (l₂ : List β), l₁.length = l₂.length →
      (keepIdx p i l₁).length = (keepIdx p i l₂).length := by
  intro i l₁
  induction l₁ generalizing i with
  | nil => intro l₂ h; cases l₂ <;> simp_all [keepIdx]
  | cons a as ih =>
      intro l₂ h
      cases l₂ with
      | nil => simp at h
      | cons b bs =>
          simp only [List.length_cons, Nat.succ.injEq] at h
          by_cases hp : p i <;> simp [keepIdx, hp, ih (i + 1) bs h]

theorem keepIdx_ne_nil {p : ℕ → Bool} {l : List α} (hl : l ≠ [])
    (hp : p 0 = true) : keepIdx p 0 l ≠ [] := by
  cases l with
  | nil => exact absurd rfl hl
  | cons a as => simp [keepIdx, hp]

/-!  C10 -/

/-- C10: on an uninitialized index (a fresh `FaissIndex()`, or any index after
`delete_index`) the lookup helpers do not raise: `get_vector_by_utterance`
returns `None` for every utterance and `get_utterance_by_vector` returns the
empty list for every vector and `k`. -/
theorem C10_uninit_lookups (s : IndexState) (u : String) (v : List ℚ) (k : ℕ) :
    getVectorByUtterance initState u = none ∧
    getUtteranceByVector initState v k = .ok [] ∧
    getVectorByUtterance (deleteIndex s) u = none ∧
    getUtteranceByVector (deleteIndex s) v k = .ok [] :=
  ⟨rfl, rfl, rfl, rfl⟩

/-!  C2 -/

/-- C2: REFUTATION of untruncated-send impossibility for configured models.
For the default configured model `BAAI/bge-large-zh-v1.5` (token limit `512`),
`_truncate` returns a 513-token document unchanged: `__init__` assigns the
`_token_encoder` attribute only when the model name is NOT in
`siliconflow_model_configs`, so for every configured model the
`hasattr(self, '_token_encoder')` guard makes `_truncate` a no-op and the
over-long text is sent to the provider untruncated. -/
theorem C2_truncate_noop_on_configured_model :
    (mkEncoder "BAAI/bge-large-zh-v1.5" 3).token_limit = 512 ∧
    (mkEncoder "BAAI/bge-large-zh-v1.5" 3).hasTokenEncoder = false ∧
    (List.replicate 513 7).length > 512 ∧
    truncate (mkEncoder "BAAI/bge-large-zh-v1.5" 3) (List.replicate 513 7) =
      List.replicate 513 7 := by
  refine ⟨rfl, rfl, by rw [List.length_replicate]; omega, rfl⟩

/-!  C6 -/

/-- C6: REFUTATION of the delete contract.  `delete` takes the Python truth
value of the numpy array `delete_idx`: with two records of route `"a"` the
call raises `ValueError` (ambiguous truth value) and removes nothing, and when
the only matching record sits at position `0` the call silently does nothing
(`bool(np.array([0]))` is `False`), although the docstring and the spec say
all matching records are removed. -/
theorem C6_delete_broken :
    (delete ((add initState [[1], [2]] ["a", "a"] ["u1", "u2"] []).1) "a" =
      ((add initState [[1], [2]] ["a", "a"] ["u1", "u2"] []).1, some .valueError) ∧
     lenIndex ((add initState [[1], [2]] ["a", "a"] ["u1", "u2"] []).1) = 2) ∧
    (delete ((add initState [[1], [2]] ["a", "b"] ["u1", "u2"] []).1) "a" =
      ((add initState [[1], [2]] ["a", "b"] ["u1", "u2"] []).1, none) ∧
     lenIndex ((add initState [[1], [2]] ["a", "b"] ["u1", "u2"] []).1) = 2) ∧
    (delete ((add initState [[1], [2]] ["a", "b"] ["u1", "u2"] []).1) "b" =
      ((add initState [[1]] ["a"] ["u1"] []).1, none)) := by
  exact ⟨⟨rfl, rfl⟩, ⟨rfl, rfl⟩, rfl⟩

/-!  C4 -/

/-- C4: on a non-empty index of fixed dimension `d`, an `add` whose batch
contains a vector of a dimension other than `d` fails with the dimension
mismatch `ValueError` and leaves the state completely unmodified (the check
precedes every mutation). -/
theorem C4_dimension_mismatch_atomic (s : IndexState) (V : List (List ℚ))
    (dd : ℕ) (e : List (List ℚ)) (r u : List String) (m : List Meta)
    (hV : s.vectors = some V) (hd : s.dimension = some dd) (hu : u ≠ [])
    (hbad : ∃ v ∈ e, v.length ≠ dd) :
    add s e r u m = (s, some .dimensionMismatch) ∧ step s (.add e r u m) = s := by
  obtain ⟨v, hv, hvd⟩ := hbad
  have main : add s e r u m = (s, some .dimensionMismatch) := by
    by_cases hc : commonDim e = true
    · have hall := commonDim_all hc
      have hdne : (e.headD []).length ≠ dd := fun h => hvd ((hall v hv).trans h)
      have hee : e.isEmpty = false := by
        cases e
        · cases hv
        · rfl
      have hue : u.isEmpty = false := by
        cases u
        · exact absurd rfl hu
        · rfl
      have hcond : some (e.headD []).length ≠ s.dimension := by
        rw [hd]
        intro h
        exact hdne (Option.some.inj h)
      unfold add
      rw [hc]
      simp only [Bool.not_true, Bool.false_eq_true, if_false, hee, hue, hV]
      rw [if_pos hcond]
    · have hc' : commonDim e = false := by
        revert hc
        cases commonDim e <;> simp
      unfold add
      rw [hc']
      simp only [Bool.not_false, if_true]
  exact ⟨main, by simp [step, main]⟩

theorem C4_dimension_mismatch_atomic_witness :
    add ((add initState [[1, 2, 3], [4, 5, 6]] ["r1", "r2"] ["hello", "world"] []).1)
        [[1, 2, 3, 4], [5, 6, 7, 8]] ["r3", "r4"] ["t1", "t2"] [] =
      ((add initState [[1, 2, 3], [4, 5, 6]] ["r1", "r2"] ["hello", "world"] []).1,
        some .dimensionMismatch) ∧
    lenIndex ((add initState [[1, 2, 3], [4, 5, 6]] ["r1", "r2"] ["hello", "world"] []).1) = 2 :=
  ⟨(C4_dimension_mismatch_atomic _ [[1, 2, 3], [4, 5, 6]] 3
      [[1, 2, 3, 4], [5, 6, 7, 8]] ["r3", "r4"] ["t1", "t2"] [] rfl rfl
      (by simp) ⟨[1, 2, 3, 4], by simp, by simp⟩).1, rfl⟩

/-!  C3 / C5: invariants of the operation sequence -/

/-- Exhaustive description of the states `add` can leave behind. -/
theorem add_cases (s : IndexState) (e : List (List ℚ)) (r u : List String)
    (m : List Meta) :
    (add s e r u m).1 = s ∨
    (e ≠ [] ∧ s.vectors = none ∧
      (add s e r u m).1 = ⟨some (e.headD []).length, some e, some r, some u,
        some (defaultMeta m u.length)⟩) ∨
    (∃ V, e ≠ [] ∧ s.vectors = some V ∧
      ((∃ R U, s.routes = some R ∧ s.utterances = some U ∧
          (add s e r u m).1 = ⟨s.dimension, some (V ++ e), some (R ++ r),
            some (U ++ u),
            some (match s.metadata with
                  | some M => M ++ defaultMeta m u.length
                  | none => defaultMeta m u.length)⟩) ∨
       ((∀ R U, ¬(s.routes = some R ∧ s.utterances = some U)) ∧
          (add s e r u m).1 = { s with vectors := some (V ++ e) }))) := by
  by_cases hc : commonDim e = true
  · by_cases hu : u.isEmpty = true
    · left; unfold add; rw [hc, hu]; rfl
    · have hu' : u.isEmpty = false := Bool.eq_false_iff.mpr hu
      by_cases he : e.isEmpty = true
      · left; unfold add; rw [hc, hu', he]; rfl
      · have he' : e.isEmpty = false := Bool.eq_false_iff.mpr he
        have hene : e ≠ [] := by
          cases e
          · simp at he'
          · exact List.cons_ne_nil _ _
        cases hv : s.vectors with
        | none =>
            right; left
            refine ⟨hene, rfl, ?_⟩
            unfold add
            rw [hc, hu', he', hv]
            rfl
        | some V =>
            by_cases hdim : some (e.headD []).length ≠ s.dimension
            · left; unfold add
              simp only [hc, hu', he', hv, Bool.not_true, Bool.false_eq_true,
                if_false]
              rw [if_pos hdim]
            · have hdim' : some (e.headD []).length = s.dimension :=
                not_not.mp hdim
              cases hr : s.routes with
              | some R =>
                  cases hu2 : s.utterances with
                  | some U =>
                      right; right
                      refine ⟨V, hene, rfl, Or.inl ⟨R, U, rfl, rfl, ?_⟩⟩
                      unfold add
                      simp only [hc, hu', he', hv, hr, hu2, Bool.not_true,
                        Bool.false_eq_true, if_false]
                      rw [if_neg hdim]
                  | none =>
                      right; right
                      refine ⟨V, hene, rfl, Or.inr ⟨?_, ?_⟩⟩
                      · rintro R' U' ⟨_, hU'⟩; cases hU'
                      · unfold add
                        simp only [hc, hu', he', hv, hr, hu2, Bool.not_true,
                          Bool.false_eq_true, if_false]
                        rw [if_neg hdim]
              | none =>
                  right; right
                  refine ⟨V, hene, rfl, Or.inr ⟨?_, ?_⟩⟩
                  · rintro R' U' ⟨hR', _⟩; cases hR'
                  · unfold add
                    simp only [hc, hu', he', hv, hr, Bool.not_true,
                      Bool.false_eq_true, if_false]
                    rw [if_neg hdim]
  · have hc' : commonDim e = false := Bool.eq_false_iff.mpr hc
    left; unfold add; rw [hc']; rfl

/-- Exhaustive description of the states `delete` can leave behind: either the
state is untouched, or exactly one position `i ≠ 0` is dropped from every
container. -/
theorem delete_cases (s : IndexState) (name : String) :
    (delete s name).1 = s ∨
    (∃ V R U i, s.vectors = some V ∧ s.routes = some R ∧ s.utterances = some U ∧
      matchIdx R name = [i] ∧ i ≠ 0 ∧ R.length = V.length ∧
      (delete s name).1 = ⟨s.dimension, some (keepIdx (fun j => j != i) 0 V),
        some (keepIdx (fun j => j != i) 0 R), some (keepIdx (fun j => j != i) 0 U),
        s.metadata.map (keepIdx (fun j => j != i) 0)⟩) := by
  cases hv : s.vectors with
  | none => left; unfold delete; rw [hv]
  | some V =>
      cases hr : s.routes with
      | none => left; unfold delete; rw [hv, hr]
      | some R =>
          cases hu : s.utterances with
          | none => left; unfold delete; rw [hv, hr, hu]
          | some U =>
              cases hmi : matchIdx R name with
              | nil =>
                  left; unfold delete
                  simp only [hv, hr, hu, hmi]
              | cons i t =>
                  cases t with
                  | cons j t' =>
                      left; unfold delete
                      simp only [hv, hr, hu, hmi]
                  | nil =>
                      by_cases hi : i = 0
                      · left; unfold delete
                        simp only [hv, hr, hu, hmi, hi]
                        rfl
                      · have hib : (i == 0) = false := by simp [hi]
                        by_cases hlen : R.length = V.length
                        · right
                          refine ⟨V, R, U, i, rfl, rfl, rfl,
                            by first | rfl | exact hmi, hi, hlen, ?_⟩
                          unfold delete
                          simp only [hv, hr, hu, hmi, hib, Bool.false_eq_true,
                            if_false]
                          rw [if_neg (by omega : ¬R.length ≠ V.length)]
                        · left; unfold delete
                          simp only [hv, hr, hu, hmi, hib, Bool.false_eq_true,
                            if_false]
                          rw [if_pos hlen]

/-- A populated faiss structure always holds at least one vector (an empty
`add` batch raises before mutating, and `delete` can never remove the last
record because a sole match at position 0 is a silent no-op). -/
def vectorsNonempty (s : IndexState) : Prop := ∀ V, s.vectors = some V → V ≠ []

theorem step_vectorsNonempty (s : IndexState) (op : Op) (h : vectorsNonempty s) :
    vectorsNonempty (step s op) := by
  cases op with
  | query q k f => exact h
  | deleteIndex => intro V hV; cases hV
  | add e r u m =>
      intro V' hV'
      simp only [step] at hV'
      rcases add_cases s e r u m with hcase | ⟨hene, _, hcase⟩ |
        ⟨V, hene, _, ⟨R, U, _, _, hcase⟩ | ⟨_, hcase⟩⟩ <;> rw [hcase] at hV'
      · exact h V' hV'
      all_goals
        simp only [Option.some.injEq] at hV'
        subst hV'
        simp [hene]
  | delete name =>
      intro V' hV'
      simp only [step] at hV'
      rcases delete_cases s name with hcase |
        ⟨V, R, U, i, hv, _, _, _, hi, _, hcase⟩ <;> rw [hcase] at hV'
      · exact h V' hV'
      · simp only [Option.some.injEq] at hV'
        subst hV'
        exact keepIdx_ne_nil (h V hv) (by simp [bne_iff_ne]; omega)

theorem run_vectorsNonempty (ops : List Op) : vectorsNonempty (run ops) := by
  have fold : ∀ (l : List Op) (s : IndexState), vectorsNonempty s →
      vectorsNonempty (l.foldl step s) := by
    intro l
    induction l with
    | nil => exact fun s hs => hs
    | cons op l ih => exact fun s hs => ih _ (step_vectorsNonempty s op hs)
  exact fold ops initState (fun V hV => by cases hV)

theorem defaultMeta_length (m : List Meta) (n : ℕ) (h : m = [] ∨ m.length = n) :
    (defaultMeta m n).length = n := by
  rcases h with rfl | h
  · simp [defaultMeta]
  · cases m with
    | nil => simp [defaultMeta]
    | cons x xs => simpa [defaultMeta] using h

/-- Lockstep holds exactly when all four containers are present with one
common length (or none is). -/
theorem lockstep_some {s : IndexState} {V : List (List ℚ)} {R U : List String}
    (hl : lockstep s) (hv : s.vectors = some V) (hr : s.routes = some R)
    (hu : s.utterances = some U) :
    ∃ M, s.metadata = some M ∧ V.length = R.length ∧ R.length = U.length ∧
      U.length = M.length := by
  unfold lockstep at hl
  rw [hv, hr, hu] at hl
  cases hm : s.metadata with
  | none => rw [hm] at hl; exact absurd hl (by simp)
  | some M =>
      rw [hm] at hl
      exact ⟨M, rfl, hl⟩

theorem step_lockstep (s : IndexState) (op : Op) (hl : lockstep s)
    (hwf : opWF op) : lockstep (step s op) := by
  cases op with
  | query q k f => exact hl
  | deleteIndex => exact trivial
  | add e r u m =>
      obtain ⟨h1, h2, h3⟩ := hwf
      simp only [step]
      rcases add_cases s e r u m with hcase | ⟨_, _, hcase⟩ |
        ⟨V, _, hv, ⟨R, U, hr, hu, hcase⟩ | ⟨hbad, hcase⟩⟩ <;> rw [hcase]
      · exact hl
      · simp only [lockstep, defaultMeta_length m u.length h3]
        exact ⟨h1, h2, trivial⟩
      · obtain ⟨M, hm, g1, g2, g3⟩ := lockstep_some hl hv hr hu
        rw [hm]
        simp only [lockstep, List.length_append,
          defaultMeta_length m u.length h3]
        omega
      · exfalso
        unfold lockstep at hl
        rw [hv] at hl
        cases hr : s.routes with
        | none =>
            rw [hr] at hl
            cases hu2 : s.utterances <;> rw [hu2] at hl <;>
              cases hm : s.metadata <;> rw [hm] at hl <;> exact hl
        | some R =>
            cases hu2 : s.utterances with
            | none =>
                rw [hr, hu2] at hl
                cases hm : s.metadata <;> rw [hm] at hl <;> exact hl
            | some U => exact hbad R U ⟨hr, hu2⟩
  | delete name =>
      simp only [step]
      rcases delete_cases s name with hcase |
        ⟨V, R, U, i, hv, hr, hu, _, _, _, hcase⟩ <;> rw [hcase]
      · exact hl
      · obtain ⟨M, hm, g1, g2, g3⟩ := lockstep_some hl hv hr hu
        rw [hm]
        simp only [lockstep, Option.map_some']
        exact ⟨keepIdx_length_congr _ 0 V R g1, keepIdx_length_congr _ 0 R U g2,
          keepIdx_length_congr _ 0 U M g3⟩

/-- C3: under equal-length `add` inputs, every sequence of index operations
keeps the three parallel arrays and the ANN structure in lockstep
(`len(routes) == len(utterances) == len(metadata) == ntotal`); the private
`_remove_and_sync` rebuild preserves lockstep as well. -/
theorem C3_lockstep_invariant (ops : List Op) (hwf : ∀ op ∈ ops, opWF op) :
    lockstep (run ops) ∧
    (∀ (s : IndexState) (d : List (String × List String)) (s' : IndexState)
        (rem : List (String × String)), lockstep s →
        removeAndSync s d = .ok (s', rem) → lockstep s') := by
  constructor
  · have fold : ∀ (l : List Op) (s : IndexState), lockstep s →
        (∀ op ∈ l, opWF op) → lockstep (l.foldl step s) := by
      intro l
      induction l with
      | nil => exact fun s hs _ => hs
      | cons op l ih =>
          intro s hs hall
          exact ih _ (step_lockstep s op hs (hall op (List.mem_cons_self op l)))
            (fun o ho => hall o (List.mem_cons_of_mem op ho))
    exact fold ops initState trivial hwf
  · intro s d s' rem hl hok
    cases hv : s.vectors with
    | none => unfold removeAndSync at hok; rw [hv] at hok; cases hok
    | some V =>
        cases hr : s.routes with
        | none => unfold removeAndSync at hok; rw [hv, hr] at hok; cases hok
        | some R =>
            cases hu : s.utterances with
            | none => unfold removeAndSync at hok; rw [hv, hr, hu] at hok; cases hok
            | some U =>
                obtain ⟨M, hm, g1, g2, g3⟩ := lockstep_some hl hv hr hu
                unfold removeAndSync at hok
                rw [hv, hr, hu] at hok
                simp only [Except.ok.injEq, Prod.mk.injEq] at hok
                obtain ⟨hs', _⟩ := hok
                subst hs'
                rw [hm]
                simp only [lockstep, Option.map_some']
                exact ⟨keepIdx_length_congr _ 0 V R g1,
                  keepIdx_length_congr _ 0 R U g2,
                  keepIdx_length_congr _ 0 U M g3⟩

theorem C3_lockstep_invariant_witness :
    lockstep (run [.add [[1], [2]] ["a", "b"] ["u1", "u2"] [],
                   .delete "b", .query [1] 1 none]) :=
  (C3_lockstep_invariant _ (by
    intro op hop
    fin_cases hop <;> simp [opWF])).1

/-- C5: every state reachable through the public operations that reports zero
records is an uninitialized one, and `query` on it fails with the
not-populated `ValueError`, for every vector, `k` and filter. -/
theorem C5_query_zero_records (ops : List Op) (q : List ℚ) (k : ℕ)
    (f : Option (List String)) (h0 : lenIndex (run ops) = 0) :
    query (run ops) q k f = .error .notPopulated := by
  have hnone : (run ops).vectors = none := by
    cases hvv : (run ops).vectors with
    | none => rfl
    | some V =>
        have hne : V ≠ [] := run_vectorsNonempty ops V hvv
        have : V.length = 0 := by simpa [lenIndex, hvv] using h0
        exact absurd (List.length_eq_zero.mp this) hne
  cases hr : (run ops).routes <;> simp [query, hnone, hr]

theorem C5_query_zero_records_witness :
    query (run []) [1] 5 none = .error .notPopulated :=
  C5_query_zero_records [] [1] 5 none rfl

/-!  C7: retry / backoff / no-partial-result policy of the encoder -/

theorem batchAttempts_step_success (oracle : ℕ → APIOutcome) (R j : ℕ)
    (embeds : Option (List (List ℚ))) (sleeps : List ℕ) (hj : j ≤ R)
    (data : List (List ℚ)) (ho : oracle j = .ok data) (hne : data ≠ []) :
    batchAttempts oracle R j embeds sleeps = (.ok (some data), sleeps) := by
  have hde : data.isEmpty = false := by
    cases data
    · exact absurd rfl hne
    · rfl
  unfold batchAttempts
  rw [if_neg (by omega : ¬R + 1 ≤ j)]
  simp only [ho, hde, Bool.false_eq_true, if_false]

theorem batchAttempts_step_fatal (oracle : ℕ → APIOutcome) (R j : ℕ)
    (embeds : Option (List (List ℚ))) (sleeps : List ℕ) (hj : j ≤ R)
    (ho : oracle j = .otherErr) :
    batchAttempts oracle R j embeds sleeps = (.error .apiCallFailed, sleeps) := by
  unfold batchAttempts
  rw [if_neg (by omega : ¬R + 1 ≤ j)]
  simp only [ho]

theorem batchAttempts_step_exhaust (oracle : ℕ → APIOutcome) (R j : ℕ)
    (embeds : Option (List (List ℚ))) (sleeps : List ℕ) (hj : j ≤ R)
    (hstop : ¬(R ≠ 0 ∧ j < R)) (ho : oracle j = .openaiErr) :
    batchAttempts oracle R j embeds sleeps = (.error .openaiError, sleeps) := by
  unfold batchAttempts
  rw [if_neg (by omega : ¬R + 1 ≤ j)]
  simp only [ho]
  rw [if_neg hstop]

theorem batchAttempts_step_retry (oracle : ℕ → APIOutcome) (R j : ℕ)
    (embeds : Option (List (List ℚ))) (sleeps : List ℕ) (hj : j < R)
    (ho : oracle j = .openaiErr) :
    batchAttempts oracle R j embeds sleeps =
      batchAttempts oracle R (j + 1) embeds (sleeps ++ [2 ^ j]) := by
  conv_lhs => unfold batchAttempts
  rw [if_neg (by omega : ¬R + 1 ≤ j)]
  simp only [ho]
  rw [if_pos ⟨by omega, hj⟩]

/-- Running the loop across a block of `n` consecutive transient failures
performs the backoff sleeps `2^j, ..., 2^(j+n-1)` in order. -/
theorem batchAttempts_transient_prefix (oracle : ℕ → APIOutcome) (R : ℕ) :
    ∀ (n j : ℕ) (embeds : Option (List (List ℚ))) (sleeps : List ℕ),
      j + n ≤ R → (∀ i, j ≤ i → i < j + n → oracle i = .openaiErr) →
      batchAttempts oracle R j embeds sleeps =
        batchAttempts oracle R (j + n) embeds
          (sleeps ++ (List.range' j n).map (fun i => 2 ^ i)) := by
  intro n
  induction n with
  | zero => intro j embeds sleeps _ _; simp
  | succ n ih =>
      intro j embeds sleeps hle htr
      rw [batchAttempts_step_retry oracle R j embeds sleeps (by omega)
        (htr j le_rfl (by omega))]
      rw [ih (j + 1) embeds (sleeps ++ [2 ^ j]) (by omega)
        (fun i hi1 hi2 => htr i (by omega) (by omega))]
      have harg : j + 1 + n = j + (n + 1) := by omega
      rw [harg, List.append_assoc]
      rfl

theorem runBatch_transient_success (oracle : ℕ → APIOutcome) (R m : ℕ)
    (data : List (List ℚ)) (hm : m ≤ R)
    (htr : ∀ i, i < m → oracle i = .openaiErr) (ho : oracle m = .ok data)
    (hne : data ≠ []) :
    runBatch oracle R = (.ok data, (List.range m).map (fun i => 2 ^ i)) := by
  have hde : data.isEmpty = false := by
    cases data
    · exact absurd rfl hne
    · rfl
  have h0 := batchAttempts_transient_prefix oracle R m 0 none [] (by omega)
    (fun i h1 h2 => htr i (by omega))
  rw [batchAttempts_step_success oracle R (0 + m) none _ (by omega) data
    (by rwa [Nat.zero_add]) hne] at h0
  unfold runBatch
  rw [h0]
  simp only [hde, Bool.false_eq_true, if_false, List.nil_append,
    List.range_eq_range']

theorem runBatch_fatal (oracle : ℕ → APIOutcome) (R m : ℕ) (hm : m ≤ R)
    (htr : ∀ i, i < m → oracle i = .openaiErr) (ho : oracle m = .otherErr) :
    runBatch oracle R =
      (.error .apiCallFailed, (List.range m).map (fun i => 2 ^ i)) := by
  have h0 := batchAttempts_transient_prefix oracle R m 0 none [] (by omega)
    (fun i h1 h2 => htr i (by omega))
  rw [batchAttempts_step_fatal oracle R (0 + m) none _ (by omega)
    (by rwa [Nat.zero_add])] at h0
  unfold runBatch
  rw [h0]
  simp only [List.nil_append, List.range_eq_range']

theorem runBatch_exhaust (oracle : ℕ → APIOutcome) (R : ℕ)
    (htr : ∀ j, j ≤ R → oracle j = .openaiErr) :
    (runBatch oracle R).1 = .error .openaiError := by
  have h0 := batchAttempts_transient_prefix oracle R R 0 none [] (by omega)
    (fun i h1 h2 => htr i (by omega))
  rw [batchAttempts_step_exhaust oracle R (0 + R) none _ (by omega)
    (by omega) (htr (0 + R) (by omega))] at h0
  unfold runBatch
  rw [h0]

theorem exceptBind_ok (a : α) (f : α → Except ε β) :
    (Except.ok a >>= f : Except ε β) = f a := rfl

theorem exceptBind_err (e : ε) (f : α → Except ε β) :
    (Except.error e >>= f : Except ε β) = .error e := rfl

theorem exceptMap_ok (f : α → β) (a : α) :
    Except.map f (Except.ok a : Except ε α) = .ok (f a) := rfl

theorem exceptMap_err (f : α → β) (e : ε) :
    Except.map f (Except.error e : Except ε α) = .error e := rfl

theorem exceptPure (a : α) : (pure a : Except ε α) = .ok a := rfl

theorem exceptFmap_ok (f : α → β) (a : α) :
    (f <$> (Except.ok a : Except ε α)) = .ok (f a) := rfl

theorem exceptFmap_err (f : α → β) (e : ε) :
    (f <$> (Except.error e : Except ε α)) = .error e := rfl

theorem encodeBatches_foldl_eq (oracle : ℕ → ℕ → APIOutcome) (R : ℕ) :
    ∀ (l : List ℕ) (acc : List (List ℚ)),
      (l.foldlM (fun acc b =>
        match (runBatch (oracle b) R).1 with
        | .ok data => Except.ok (acc ++ data)
        | .error e => .error e) acc) =
      ((l.mapM (fun b => (runBatch (oracle b) R).1)).map
        (fun ds => acc ++ ds.flatten)) := by
  intro l
  induction l with
  | nil =>
      intro acc
      rw [List.foldlM_nil, List.mapM_nil]
      simp [exceptPure, exceptMap_ok]
  | cons b l ih =>
      intro acc
      rw [List.foldlM_cons, List.mapM_cons]
      cases hb : (runBatch (oracle b) R).1 with
      | error e => simp [hb, exceptBind_err, exceptMap_err]
      | ok data =>
          simp only [hb, exceptBind_ok]
          rw [ih (acc ++ data)]
          cases hlm : l.mapM (fun b => (runBatch (oracle b) R).1) with
          | error e => simp [hlm, exceptBind_err, exceptMap_err]
          | ok ds =>
              simp [hlm, exceptBind_ok, exceptMap_ok, exceptPure,
                List.append_assoc]

theorem exists_error_of_mapM_bad (f : ℕ → Except EncodeErr (List (List ℚ))) :
    ∀ (l : List ℕ), (∃ b ∈ l, ∀ d, f b ≠ .ok d) →
      ∃ e, l.mapM f = .error e := by
  intro l
  induction l with
  | nil => rintro ⟨b, hb, _⟩; cases hb
  | cons a l ih =>
      rintro ⟨b, hb, hbad⟩
      cases ha : f a with
      | error e =>
          refine ⟨e, ?_⟩
          rw [List.mapM_cons, ha, exceptBind_err]
      | ok d =>
          rcases List.mem_cons.mp hb with rfl | hb'
          · exact absurd ha (hbad d)
          · obtain ⟨e, he⟩ := ih ⟨b, hb', hbad⟩
            refine ⟨e, ?_⟩
            rw [List.mapM_cons, ha, exceptBind_ok, he]
            rfl

/-- C7: per-batch retry policy of `__call__`/`acall`: a transient
(`OpenAIError`) failure at attempt `j` is retried after a `2^j`-second
backoff, up to `max_retries` retries; a non-transient error aborts the batch
immediately with no further attempts; exhausting all retries fails the batch;
and the whole `encode` call returns the concatenation of all batch results or
the first batch error with every earlier batch's embeddings discarded. -/
theorem C7_retry_policy :
    (∀ (oracle : ℕ → APIOutcome) (R m : ℕ) (data : List (List ℚ)), m ≤ R →
      (∀ i, i < m → oracle i = .openaiErr) → oracle m = .ok data → data ≠ [] →
      runBatch oracle R = (.ok data, (List.range m).map (fun i => 2 ^ i))) ∧
    (∀ (oracle : ℕ → APIOutcome) (R m : ℕ), m ≤ R →
      (∀ i, i < m → oracle i = .openaiErr) → oracle m = .otherErr →
      runBatch oracle R =
        (.error .apiCallFailed, (List.range m).map (fun i => 2 ^ i))) ∧
    (∀ (oracle : ℕ → APIOutcome) (R : ℕ), (∀ j, j ≤ R → oracle j = .openaiErr) →
      (runBatch oracle R).1 = .error .openaiError) ∧
    (∀ (oracle : ℕ → ℕ → APIOutcome) (R n : ℕ),
      encodeBatches oracle R n =
        ((List.range n).mapM (fun b => (runBatch (oracle b) R).1)).map
          List.flatten) ∧
    (∀ (oracle : ℕ → ℕ → APIOutcome) (R n : ℕ),
      (∃ b, b < n ∧ ∀ d, (runBatch (oracle b) R).1 ≠ .ok d) →
      ∃ e, encodeBatches oracle R n = .error e) := by
  refine ⟨?_, ?_, ?_, ?_, ?_⟩
  · exact fun oracle R m data hm htr ho hne =>
      runBatch_transient_success oracle R m data hm htr ho hne
  · exact fun oracle R m hm htr ho => runBatch_fatal oracle R m hm htr ho
  · exact fun oracle R htr => runBatch_exhaust oracle R htr
  · intro oracle R n
    unfold encodeBatches
    rw [encodeBatches_foldl_eq oracle R (List.range n) []]
    cases hlm : (List.range n).mapM (fun b => (runBatch (oracle b) R).1) with
    | error e => simp [hlm, exceptMap_err]
    | ok ds => simp [hlm, exceptMap_ok]
  · intro oracle R n ⟨b, hb, hbad⟩
    obtain ⟨e, he⟩ := exists_error_of_mapM_bad
      (fun b => (runBatch (oracle b) R).1) (List.range n)
      ⟨b, List.mem_range.mpr hb, hbad⟩
    refine ⟨e, ?_⟩
    unfold encodeBatches
    rw [encodeBatches_foldl_eq oracle R (List.range n) [], he]
    rfl

theorem C7_retry_policy_witness :
    runBatch (fun j => if j < 2 then .openaiErr else .ok [[1]]) 3 =
      (.ok [[1]], [1, 2]) := by
  have h := C7_retry_policy.1 (fun j => if j < 2 then .openaiErr else .ok [[1]])
    3 2 [[1]] (by omega)
    (fun i hi => by simp [hi])
    (by simp)
    (by simp)
  simpa [List.range_succ] using h

/-!  C9: the manual threshold grid search -/

theorem bestStep_snd (acc : ℚ → Option ℚ) (b : ℚ × ℚ) (t : ℚ) :
    (bestStep acc b t).2 = maxStep acc b.2 t := by
  unfold bestStep maxStep
  cases acc t with
  | none => rfl
  | some a =>
      by_cases h : b.2 < a
      · simp [h, max_eq_right (le_of_lt h)]
      · simp [h, max_eq_left (not_lt.mp h)]

theorem foldl_bestStep_snd (acc : ℚ → Option ℚ) :
    ∀ (grid : List ℚ) (b : ℚ × ℚ),
      (grid.foldl (bestStep acc) b).2 = grid.foldl (maxStep acc) b.2 := by
  intro grid
  induction grid with
  | nil => intro b; rfl
  | cons t grid ih =>
      intro b
      rw [List.foldl_cons, List.foldl_cons, ih, bestStep_snd]

theorem le_foldl_maxStep (acc : ℚ → Option ℚ) :
    ∀ (grid : List ℚ) (b : ℚ), b ≤ grid.foldl (maxStep acc) b := by
  intro grid
  induction grid with
  | nil => intro b; exact le_refl b
  | cons t grid ih =>
      intro b
      rw [List.foldl_cons]
      refine le_trans ?_ (ih (maxStep acc b t))
      unfold maxStep
      cases acc t
      · exact le_refl b
      · exact le_max_left _ _

/-- What the candidate fold computes: if some candidate strictly beats the
initial running accuracy, the result is the first candidate attaining the
maximum observed accuracy; otherwise the initial pair is returned
unchanged. -/
theorem foldl_best_spec (acc : ℚ → Option ℚ) :
    ∀ (grid : List ℚ) (b : ℚ × ℚ),
      (b.2 < grid.foldl (maxStep acc) b.2 →
        ∃ t₀, grid.find?
            (fun t => acc t == some (grid.foldl (maxStep acc) b.2)) = some t₀ ∧
          grid.foldl (bestStep acc) b = (t₀, grid.foldl (maxStep acc) b.2)) ∧
      (¬ b.2 < grid.foldl (maxStep acc) b.2 →
        grid.foldl (bestStep acc) b = b) := by
  intro grid
  induction grid with
  | nil =>
      intro b
      exact ⟨fun h => absurd h (lt_irrefl _), fun _ => rfl⟩
  | cons t grid ih =>
      intro b
      rw [List.foldl_cons, List.foldl_cons]
      cases hat : acc t with
      | none =>
          have hb : bestStep acc b t = b := by unfold bestStep; rw [hat]
          have hm : maxStep acc b.2 t = b.2 := by unfold maxStep; rw [hat]
          rw [hb, hm]
          refine ⟨fun hlt => ?_, (ih b).2⟩
          obtain ⟨t₀, hfind, heq⟩ := (ih b).1 hlt
          refine ⟨t₀, ?_, heq⟩
          rw [List.find?_cons_of_neg _ (by simp [hat])]
          exact hfind
      | some a =>
          by_cases hlt : b.2 < a
          · have hb : bestStep acc b t = (t, a) := by
              unfold bestStep; rw [hat]; simp [hlt]
            have hm : maxStep acc b.2 t = a := by
              unfold maxStep; rw [hat]; exact max_eq_right (le_of_lt hlt)
            rw [hb, hm]
            have haM : a ≤ grid.foldl (maxStep acc) a :=
              le_foldl_maxStep acc grid a
            by_cases hM : a < grid.foldl (maxStep acc) a
            · refine ⟨fun _ => ?_,
                fun hno => absurd (lt_of_lt_of_le hlt haM) hno⟩
              obtain ⟨t₀, hfind, heq⟩ := (ih (t, a)).1 hM
              refine ⟨t₀, ?_, heq⟩
              rw [List.find?_cons_of_neg _
                (by simp [hat]; exact ne_of_lt hM)]
              exact hfind
            · have hMa : grid.foldl (maxStep acc) a = a :=
                le_antisymm (not_lt.mp hM) haM
              have heq : grid.foldl (bestStep acc) (t, a) = (t, a) :=
                (ih (t, a)).2 hM
              refine ⟨fun _ => ?_,
                fun hno => absurd (lt_of_lt_of_le hlt haM) hno⟩
              refine ⟨t, ?_, by rw [heq, hMa]⟩
              rw [List.find?_cons_of_pos _ (by simp [hat, hMa])]
          · have hb : bestStep acc b t = b := by
              unfold bestStep; rw [hat]; simp [hlt]
            have hm : maxStep acc b.2 t = b.2 := by
              unfold maxStep; rw [hat]; exact max_eq_left (not_lt.mp hlt)
            rw [hb, hm]
            refine ⟨fun hlt2 => ?_, (ih b).2⟩
            obtain ⟨t₀, hfind, heq⟩ := (ih b).1 hlt2
            refine ⟨t₀, ?_, heq⟩
            rw [List.find?_cons_of_neg _ (by
              simp [hat]
              exact ne_of_lt (lt_of_le_of_lt (not_lt.mp hlt) hlt2))]
            exact hfind

theorem foldl_maxStep_nonpos (acc : ℚ → Option ℚ) :
    ∀ (grid : List ℚ), (∀ t ∈ grid, ∀ a, acc t = some a → a ≤ 0) →
      grid.foldl (maxStep acc) 0 = 0 := by
  intro grid
  induction grid with
  | nil => intro _; rfl
  | cons t grid ih =>
      intro h
      rw [List.foldl_cons]
      have hm : maxStep acc 0 t = 0 := by
        unfold maxStep
        cases hat : acc t with
        | none => rfl
        | some a => exact max_eq_left (h t (List.mem_cons_self t grid) a hat)
      rw [hm]
      exact ih (fun t' ht' a ha => h t' (List.mem_cons_of_mem t ht') a ha)

theorem searchRange_getD (lo hi : ℚ) (i : ℕ) (hi20 : i < 20) :
    (searchRange lo hi).getD i 0 = lo + (hi - lo) * i / 19 := by
  unfold searchRange
  rw [List.getD_eq_getElem?_getD, List.getElem?_map, List.getElem?_range hi20]
  rfl

/-- C9: REFUTATION of the tie rule as claimed.  With observed scores `[1]`
and current threshold `5`, an evaluation that scores every candidate `0`
(all 20 candidates tie at the best accuracy) makes `_find_best_threshold`
return the current threshold `5` — which is not one of the 20 scanned
candidates (they span `[0.8, 1.2]`) — rather than the first candidate
found. -/
theorem C9_counterexample :
    findBestThreshold [1] 5 (fun _ => some 0) = (5, 0) ∧
    (5 : ℚ) ∉ searchRange ((1 : ℚ) * (8 / 10)) ((1 : ℚ) * (12 / 10)) := by
  constructor
  · have hM : (searchRange ((List.foldl min (1 : ℚ) []) * (8 / 10))
        ((List.foldl max (1 : ℚ) []) * (12 / 10))).foldl
        (maxStep (fun _ => some 0)) 0 = 0 :=
      foldl_maxStep_nonpos _ _ (fun t _ a ha => by
        injection ha with h
        exact le_of_eq h.symm)
    have hno : ¬ ((5 : ℚ), (0 : ℚ)).2 <
        (searchRange ((List.foldl min (1 : ℚ) []) * (8 / 10))
          ((List.foldl max (1 : ℚ) []) * (12 / 10))).foldl
          (maxStep (fun _ => some 0)) ((5 : ℚ), (0 : ℚ)).2 := by
      show ¬ (0 : ℚ) < _
      rw [hM]
      exact lt_irrefl 0
    unfold findBestThreshold
    exact (foldl_best_spec (fun _ => some 0)
      (searchRange ((List.foldl min (1 : ℚ) []) * (8 / 10))
        ((List.foldl max (1 : ℚ) []) * (12 / 10))) (5, 0)).2 hno
  · intro hmem
    unfold searchRange at hmem
    rw [List.mem_map] at hmem
    obtain ⟨i, hi, hieq⟩ := hmem
    rw [List.mem_range] at hi
    have hic : (i : ℚ) ≤ 19 := by exact_mod_cast Nat.le_of_lt_succ hi
    have h0 : (0 : ℚ) ≤ (i : ℚ) := Nat.cast_nonneg i
    nlinarith [hieq, hic, h0]

/-- C9 (amended): the manual grid search always scans exactly 20 evenly
spaced candidates spanning `[0.8 * min_observed, 1.2 * max_observed]`; when
some candidate attains strictly positive accuracy, it keeps the first
candidate attaining the maximum observed accuracy (ties at the maximum keep
the first, i.e. lowest, candidate scanned); when no candidate scores above
`0`, the route's current threshold is returned unchanged with accuracy `0`
(not the first candidate). -/
theorem C9_grid_search (s : ℚ) (rest : List ℚ) (c : ℚ) (acc : ℚ → Option ℚ) :
    (∀ lo hi : ℚ, (searchRange lo hi).length = 20 ∧
      (searchRange lo hi).getD 0 0 = lo ∧
      (searchRange lo hi).getD 19 0 = hi ∧
      (∀ i : ℕ, i + 1 < 20 →
        (searchRange lo hi).getD (i + 1) 0 - (searchRange lo hi).getD i 0 =
          (hi - lo) / 19)) ∧
    (0 < bestAcc (searchRange ((rest.foldl min s) * (8 / 10))
        ((rest.foldl max s) * (12 / 10))) acc →
      ∃ t₀,
        (searchRange ((rest.foldl min s) * (8 / 10))
            ((rest.foldl max s) * (12 / 10))).find?
          (fun t => acc t == some (bestAcc (searchRange
            ((rest.foldl min s) * (8 / 10))
            ((rest.foldl max s) * (12 / 10))) acc)) = some t₀ ∧
        findBestThreshold (s :: rest) c acc =
          (t₀, bestAcc (searchRange ((rest.foldl min s) * (8 / 10))
            ((rest.foldl max s) * (12 / 10))) acc)) ∧
    ((∀ t ∈ searchRange ((rest.foldl min s) * (8 / 10))
        ((rest.foldl max s) * (12 / 10)), ∀ a, acc t = some a → a ≤ 0) →
      findBestThreshold (s :: rest) c acc = (c, 0)) := by
  refine ⟨?_, ?_, ?_⟩
  · intro lo hi
    refine ⟨by simp [searchRange], ?_, ?_, ?_⟩
    · rw [searchRange_getD lo hi 0 (by omega)]
      push_cast
      ring
    · rw [searchRange_getD lo hi 19 (by omega)]
      push_cast
      ring
    · intro i h
      rw [searchRange_getD lo hi (i + 1) (by omega),
        searchRange_getD lo hi i (by omega)]
      push_cast
      ring
  · intro hpos
    obtain ⟨t₀, hfind, heq⟩ := (foldl_best_spec acc
      (searchRange ((rest.foldl min s) * (8 / 10))
        ((rest.foldl max s) * (12 / 10))) (c, 0)).1 hpos
    exact ⟨t₀, hfind, heq⟩
  · intro hz
    have hM := foldl_maxStep_nonpos acc
      (searchRange ((rest.foldl min s) * (8 / 10))
        ((rest.foldl max s) * (12 / 10))) hz
    have hno : ¬ (0 : ℚ) < (searchRange ((rest.foldl min s) * (8 / 10))
        ((rest.foldl max s) * (12 / 10))).foldl (maxStep acc) 0 := by
      rw [hM]
      exact lt_irrefl 0
    exact (foldl_best_spec acc
      (searchRange ((rest.foldl min s) * (8 / 10))
        ((rest.foldl max s) * (12 / 10))) (c, 0)).2 hno

theorem C9_grid_search_witness :
    findBestThreshold [2] 7 (fun _ => some 0) = (7, 0) :=
  (C9_grid_search 2 [] 7 (fun _ => some 0)).2.2 (fun t _ a ha => by
    injection ha with h
    exact le_of_eq h.symm)

/-!  C1 / C8: the search path of `query` -/

theorem l2sq_nonneg : ∀ (q v : List ℚ), 0 ≤ l2sq q v
  | [], v => by simp [l2sq]
  | a :: as, [] => by simp [l2sq]
  | a :: as, b :: bs => by
      have h := l2sq_nonneg as bs
      have h2 := mul_self_nonneg (a - b)
      have hshow : l2sq (a :: as) (b :: bs) = (a - b) * (a - b) + l2sq as bs := rfl
      rw [hshow]
      linarith

theorem FLT_MAX_nonneg : (0 : ℚ) ≤ FLT_MAX := by
  unfold FLT_MAX
  norm_num

theorem faissSearch_length (V : List (List ℚ)) (q : List ℚ) (k : ℕ) :
    (faissSearch V q k).length = k := by
  simp only [faissSearch]
  rw [List.length_append, List.length_replicate, List.length_map,
    List.length_take, (List.perm_insertionSort distR _).length_eq,
    List.length_map, List.length_range]
  omega

theorem faissSearch_mem {V : List (List ℚ)} {q : List ℚ} {k : ℕ} {p : ℚ × ℤ}
    (hp : p ∈ faissSearch V q k) :
    p = (FLT_MAX, -1) ∨
    ∃ i : ℕ, i < V.length ∧ p = (l2sq q (V.getD i []), (i : ℤ)) := by
  simp only [faissSearch] at hp
  rcases List.mem_append.mp hp with h | h
  · right
    rw [List.mem_map] at h
    obtain ⟨pr, hpr, rfl⟩ := h
    have hpr2 : pr ∈ ((List.range V.length).map
        (fun i => (i, l2sq q (V.getD i [])))).insertionSort distR :=
      List.take_subset k _ hpr
    rw [(List.perm_insertionSort distR _).mem_iff, List.mem_map] at hpr2
    obtain ⟨i, hi, rfl⟩ := hpr2
    exact ⟨i, List.mem_range.mp hi, rfl⟩
  · left
    exact List.eq_of_mem_replicate h

theorem pairwise_fst_le_replicate (n : ℕ) (x : ℚ × ℤ) :
    (List.replicate n x).Pairwise (fun a b : ℚ × ℤ => a.1 ≤ b.1) := by
  induction n with
  | zero => exact List.Pairwise.nil
  | succ n ih =>
      rw [List.replicate_succ]
      exact List.Pairwise.cons
        (fun b hb => le_of_eq (by rw [List.eq_of_mem_replicate hb])) ih

theorem getD_mem_of_lt : ∀ {l : List α} {i : ℕ}, i < l.length → ∀ d, l.getD i d ∈ l
  | a :: as, 0, _, d => List.mem_cons_self a as
  | a :: as, i + 1, h, d =>
      List.mem_cons_of_mem a (getD_mem_of_lt (by simpa using h) d)

theorem faissSearch_sorted (V : List (List ℚ)) (q : List ℚ) (k : ℕ)
    (hb : ∀ v ∈ V, l2sq q v ≤ FLT_MAX) :
    (faissSearch V q k).Pairwise (fun a b : ℚ × ℤ => a.1 ≤ b.1) := by
  have hmemtop : ∀ p ∈ ((((List.range V.length).map
      (fun i => (i, l2sq q (V.getD i [])))).insertionSort distR).take k).map
        (fun p => (p.2, (p.1 : ℤ))), p.1 ≤ FLT_MAX := by
    intro p hp
    have hp' : p ∈ faissSearch V q k := by
      simp only [faissSearch]
      exact List.mem_append.mpr (Or.inl hp)
    rcases faissSearch_mem hp' with rfl | ⟨i, hi, rfl⟩
    · exact le_refl _
    · exact hb _ (getD_mem_of_lt hi [])
  simp only [faissSearch]
  apply List.pairwise_append.mpr
  refine ⟨?_, pairwise_fst_le_replicate _ _, ?_⟩
  · have hs : List.Sorted distR (((List.range V.length).map
        (fun i => (i, l2sq q (V.getD i [])))).insertionSort distR) :=
      List.sorted_insertionSort distR _
    have hst : ((((List.range V.length).map
        (fun i => (i, l2sq q (V.getD i [])))).insertionSort distR).take
          k).Pairwise distR :=
      hs.sublist (List.take_sublist k _)
    rw [List.pairwise_map]
    refine hst.imp ?_
    intro a b hab
    rcases hab with h | ⟨h, _⟩
    · exact le_of_lt h
    · exact le_of_eq h
  · intro a ha b hb'
    rw [List.eq_of_mem_replicate hb']
    exact hmemtop a ha

theorem npGetE_nat_ok (l : List α) (i : ℕ) (h : i < l.length) :
    ∃ a, l.get? i = some a ∧ npGetE l (i : ℤ) = .ok a := by
  refine ⟨l.get ⟨i, h⟩, List.get?_eq_get h, ?_⟩
  unfold npGetE
  rw [if_pos (by exact_mod_cast Int.ofNat_nonneg i)]
  have ht : ((i : ℤ)).toNat = i := Int.toNat_ofNat i
  rw [ht, List.get?_eq_get h]

theorem npGetE_neg_one_ok (l : List α) (hne : l ≠ []) :
    ∃ a, l.get? (l.length - 1) = some a ∧ npGetE l (-1) = .ok a := by
  have hlen : 0 < l.length := List.length_pos.mpr hne
  have hlt : l.length - 1 < l.length := by omega
  refine ⟨l.get ⟨l.length - 1, hlt⟩, List.get?_eq_get hlt, ?_⟩
  unfold npGetE
  rw [if_neg (by omega : ¬(0 : ℤ) ≤ -1)]
  have hk : ((-(-1 : ℤ)).toNat) = 1 := rfl
  rw [hk, if_pos (by omega : 1 ≤ l.length), List.get?_eq_get hlt]

theorem exceptMapM_ok_of_forall {α β : Type} {l : List α}
    {f : α → Except IndexErr β} (h : ∀ a ∈ l, ∃ b, f a = .ok b) :
    ∃ bs, l.mapM f = .ok bs ∧ bs.length = l.length := by
  induction l with
  | nil => exact ⟨[], by rw [List.mapM_nil]; rfl, rfl⟩
  | cons a l ih =>
      obtain ⟨b, hb⟩ := h a (List.mem_cons_self a l)
      obtain ⟨bs, hbs, hlen⟩ := ih (fun x hx => h x (List.mem_cons_of_mem a hx))
      refine ⟨b :: bs, ?_, by simp [hlen]⟩
      rw [List.mapM_cons, hb, exceptBind_ok, hbs, exceptBind_ok, exceptPure]

/-- C1 (amended): on a populated index, an unfiltered `query` returns
successfully with the scores sorted by non-increasing similarity — and it
returns EXACTLY `top_k` (score, route) pairs for every `top_k`, faiss padding
the surplus rows with the sentinel when `top_k` exceeds the record count, so
more than `index.count` results come back, not at most `index.count`.  (The
distance bound keeps the exact-rational model inside float32 range.) -/
theorem C1_query_sorted_exact_k (s : IndexState) (V : List (List ℚ))
    (R : List String) (dd : ℕ) (q : List ℚ) (k : ℕ)
    (hV : s.vectors = some V) (hR : s.routes = some R) (hne : V ≠ [])
    (hlen : R.length = V.length) (hd : s.dimension = some dd)
    (hq : q.length = dd) (hbound : ∀ v ∈ V, l2sq q v ≤ FLT_MAX) :
    ∃ scores names, query s q k none = .ok (scores, names) ∧
      scores.length = k ∧ names.length = k ∧
      scores.Pairwise (fun a b : ℚ => b ≤ a) := by
  have hRne : R ≠ [] := by
    intro h
    rw [h] at hlen
    exact hne (List.length_eq_zero.mp (by simpa using hlen.symm))
  have hok : ∀ p ∈ faissSearch V q k, ∃ b, npGetE R p.2 = .ok b := by
    intro p hp
    rcases faissSearch_mem hp with rfl | ⟨i, hi, rfl⟩
    · obtain ⟨a, _, ha⟩ := npGetE_neg_one_ok R hRne
      exact ⟨a, ha⟩
    · obtain ⟨a, _, ha⟩ := npGetE_nat_ok R i (by omega)
      exact ⟨a, ha⟩
  obtain ⟨ns, hns, hnslen⟩ := exceptMapM_ok_of_forall hok
  refine ⟨(faissSearch V q k).map (fun p => 1 / (1 + p.1)), ns, ?_, ?_, ?_, ?_⟩
  · simp only [query, hV, hR, hd, hq, Option.getD_some, ne_eq,
      not_true_eq_false, if_false, ite_false]
    rw [hns, exceptBind_ok, exceptPure]
  · rw [List.length_map, faissSearch_length]
  · rw [hnslen, faissSearch_length]
  · have hnn : ∀ p ∈ faissSearch V q k, 0 ≤ p.1 := by
      intro p hp
      rcases faissSearch_mem hp with rfl | ⟨i, _, rfl⟩
      · exact FLT_MAX_nonneg
      · exact l2sq_nonneg q _
    rw [List.pairwise_map]
    refine (faissSearch_sorted V q k hbound).imp_of_mem ?_
    intro a b ha hb' hab
    have h0a : 0 ≤ a.1 := hnn a ha
    exact one_div_le_one_div_of_le (by linarith) (by linarith)

theorem C1_query_sorted_exact_k_witness :
    ∃ scores names,
      query ((add initState [[1]] ["r1"] ["hello"] []).1) [1] 2 none =
        .ok (scores, names) ∧ scores.length = 2 ∧ names.length = 2 ∧
      scores.Pairwise (fun a b : ℚ => b ≤ a) :=
  C1_query_sorted_exact_k _ [[1]] ["r1"] 1 [1] 2 rfl rfl (by simp) rfl rfl rfl
    (by
      intro v hv
      rw [List.mem_singleton.mp hv]
      norm_num [l2sq, FLT_MAX])

/-- C1: REFUTATION of "at most `index.count` results".  A single-record index
queried with `top_k = 2` returns two (score, route) pairs: faiss pads the
missing row with label `-1` and the sentinel distance, and the negative label
indexes the last stored route. -/
theorem C1_counterexample :
    lenIndex ((add initState [[1]] ["r1"] ["hello"] []).1) = 1 ∧
    (query ((add initState [[1]] ["r1"] ["hello"] []).1) [1] 2 none).toOption.map
        (fun pr => (pr.1.length, pr.2)) = some (2, ["r1", "r1"]) := by
  exact ⟨rfl, rfl⟩

/-!  C8: route filtering restricts the candidate pool -/

theorem optBind_some (a : α) (f : α → Option β) : (some a >>= f) = f a := rfl

theorem optPure (a : α) : (pure a : Option α) = some a := rfl

theorem sel_spec (l : List α) :
    ∀ (idxs : List ℕ), (∀ i ∈ idxs, i < l.length) →
      idxs.mapM l.get? = some (sel l idxs) ∧
      (sel l idxs).length = idxs.length := by
  intro idxs
  induction idxs with
  | nil => intro _; exact ⟨rfl, rfl⟩
  | cons i is ih =>
      intro h
      have hi : i < l.length := h i (List.mem_cons_self i is)
      have ha : l.get? i = some (l.get ⟨i, hi⟩) := List.get?_eq_get hi
      obtain ⟨ih1, ih2⟩ := ih (fun j hj => h j (List.mem_cons_of_mem i hj))
      have hsel : sel l (i :: is) = l.get ⟨i, hi⟩ :: sel l is := by
        unfold sel
        rw [List.filterMap_cons_some ha]
      constructor
      · rw [List.mapM_cons, ha, optBind_some, ih1, optBind_some, optPure, hsel]
      · rw [hsel]
        simp [ih2]

theorem selE_ok (l : List α) (idxs : List ℕ)
    (h : ∀ i ∈ idxs, i < l.length) : selE l idxs = .ok (sel l idxs) := by
  unfold selE
  rw [(sel_spec l idxs h).1]

theorem sel_get? (l : List α) :
    ∀ (idxs : List ℕ), (∀ i ∈ idxs, i < l.length) → ∀ j,
      (sel l idxs).get? j = (idxs.get? j).bind l.get? := by
  intro idxs
  induction idxs with
  | nil => intro _ j; simp [sel]
  | cons i is ih =>
      intro h j
      have hi : i < l.length := h i (List.mem_cons_self i is)
      have ha : l.get? i = some (l.get ⟨i, hi⟩) := List.get?_eq_get hi
      have hsel : sel l (i :: is) = l.get ⟨i, hi⟩ :: sel l is := by
        unfold sel
        rw [List.filterMap_cons_some ha]
      cases j with
      | zero => rw [hsel]; simp [ha]
      | succ j =>
          rw [hsel]
          simpa using ih (fun j' hj' => h j' (List.mem_cons_of_mem i hj')) j

/-- `filter_indices[ix]` then `routes[·]` equals `routes[filter_indices][ix]`
for the index values faiss can produce. -/
theorem npGetE_sel_comp (l : List α) (idxs : List ℕ)
    (hv : ∀ i ∈ idxs, i < l.length) (hne : idxs ≠ []) (ix : ℤ)
    (hix : ix = -1 ∨ ∃ i : ℕ, ix = (i : ℤ) ∧ i < idxs.length) :
    npGetE (sel l idxs) ix =
      (npGetE idxs ix) >>= (fun i => npGetE l (i : ℤ)) := by
  have hlen := (sel_spec l idxs hv).2
  rcases hix with rfl | ⟨i, rfl, hi⟩
  · have hsne : sel l idxs ≠ [] := by
      intro h
      rw [h] at hlen
      exact hne (List.length_eq_zero.mp hlen.symm)
    obtain ⟨a, ha, hnp⟩ := npGetE_neg_one_ok (sel l idxs) hsne
    obtain ⟨j0, hj0, hnp2⟩ := npGetE_neg_one_ok idxs hne
    have hj0lt : j0 < l.length := hv j0 (List.get?_mem hj0)
    obtain ⟨b, hb, hnp3⟩ := npGetE_nat_ok l j0 hj0lt
    rw [hnp, hnp2, exceptBind_ok, hnp3]
    have hidx := sel_get? l idxs hv (idxs.length - 1)
    rw [hj0] at hidx
    rw [← hlen] at hidx
    rw [ha] at hidx
    rw [Option.some_bind] at hidx
    rw [hb] at hidx
    exact congrArg Except.ok (Option.some.inj hidx)
  · obtain ⟨j, hj, hnp⟩ := npGetE_nat_ok idxs i hi
    have hjlt : j < l.length := hv j (List.get?_mem hj)
    obtain ⟨b, hb, hnp2⟩ := npGetE_nat_ok l j hjlt
    have hslt : i < (sel l idxs).length := by rw [hlen]; exact hi
    obtain ⟨a, ha, hnp3⟩ := npGetE_nat_ok (sel l idxs) i hslt
    rw [hnp3, hnp, exceptBind_ok, hnp2]
    have hidx := sel_get? l idxs hv i
    rw [ha, hj, Option.some_bind, hb] at hidx
    exact congrArg Except.ok (Option.some.inj hidx)

theorem exceptMapM_comp_of_ok {γ β : Type} (f : γ → Except IndexErr ℕ)
    (g : ℕ → Except IndexErr β) :
    ∀ (xs : List γ), (∀ x ∈ xs, ∃ y, f x = .ok y) →
      ((xs.mapM f) >>= fun is => is.mapM g) =
        xs.mapM (fun x => f x >>= g) := by
  intro xs
  induction xs with
  | nil =>
      intro _
      rw [List.mapM_nil, List.mapM_nil, exceptPure, exceptBind_ok,
        List.mapM_nil]
  | cons x xs ih =>
      intro h
      obtain ⟨y, hy⟩ := h x (List.mem_cons_self x xs)
      have h' := fun a ha => h a (List.mem_cons_of_mem x ha)
      obtain ⟨ys, hys, _⟩ := exceptMapM_ok_of_forall h'
      rw [List.mapM_cons, List.mapM_cons, hy, exceptBind_ok, exceptBind_ok,
        hys, exceptBind_ok, exceptPure, exceptBind_ok, List.mapM_cons]
      congr 1
      funext b
      rw [← ih h', hys, exceptBind_ok]

theorem exceptMapM_congr {γ β : Type} (f g : γ → Except IndexErr β) :
    ∀ (xs : List γ), (∀ x ∈ xs, f x = g x) → xs.mapM f = xs.mapM g := by
  intro xs
  induction xs with
  | nil => intro _; rfl
  | cons x xs ih =>
      intro h
      rw [List.mapM_cons, List.mapM_cons, h x (List.mem_cons_self x xs),
        ih (fun a ha => h a (List.mem_cons_of_mem x ha))]

/-- C8: a route-filtered `query` behaves exactly like the unfiltered `query`
run over the index restricted to the records whose route is in the filter set
(`restrictPool` — the spec's candidate-pool restriction); an empty match set
raises the no-matching-routes `ValueError`. -/
theorem C8_filter_restricts_pool (s : IndexState) (V : List (List ℚ))
    (R U : List String) (q : List ℚ) (k : ℕ) (f : List String)
    (hV : s.vectors = some V) (hR : s.routes = some R)
    (hU : s.utterances = some U) (hlen : R.length = V.length) :
    ((List.range R.length).filter (fun i => f.contains (R.getD i "")) = [] →
      query s q k (some f) = .error .noMatchingRoutes) ∧
    ((List.range R.length).filter (fun i => f.contains (R.getD i "")) ≠ [] →
      query s q k (some f) = query (restrictPool s f) q k none) := by
  constructor
  · intro hempty
    have hfe : ((List.range R.length).filter
        (fun i => f.contains (R.getD i ""))).isEmpty = true := by
      rw [hempty]
      rfl
    simp only [query, hV, hR, hfe]
    rfl
  · intro hne'
    have hfe : ((List.range R.length).filter
        (fun i => f.contains (R.getD i ""))).isEmpty = false := by
      cases hc : (List.range R.length).filter (fun i => f.contains (R.getD i ""))
      · exact absurd hc hne'
      · rfl
    have hvalidR : ∀ i ∈ (List.range R.length).filter
        (fun i => f.contains (R.getD i "")), i < R.length := by
      intro i hi
      exact List.mem_range.mp (List.mem_filter.mp hi).1
    have hvalidV : ∀ i ∈ (List.range R.length).filter
        (fun i => f.contains (R.getD i "")), i < V.length := by
      intro i hi
      rw [← hlen]
      exact hvalidR i hi
    have hsel : selE V ((List.range R.length).filter
        (fun i => f.contains (R.getD i ""))) =
        .ok (sel V ((List.range R.length).filter
          (fun i => f.contains (R.getD i "")))) := selE_ok V _ hvalidV
    have hrp : restrictPool s f =
        ⟨s.dimension,
          some (sel V ((List.range R.length).filter
            (fun i => f.contains (R.getD i "")))),
          some (sel R ((List.range R.length).filter
            (fun i => f.contains (R.getD i "")))),
          some (sel U ((List.range R.length).filter
            (fun i => f.contains (R.getD i "")))),
          s.metadata.map (fun M => sel M ((List.range R.length).filter
            (fun i => f.contains (R.getD i ""))))⟩ := by
      unfold restrictPool
      rw [hV, hR, hU]
    have hsublen : (sel V ((List.range R.length).filter
        (fun i => f.contains (R.getD i "")))).length =
        ((List.range R.length).filter
          (fun i => f.contains (R.getD i ""))).length :=
      (sel_spec V _ hvalidV).2
    by_cases hcond : q.length ≠ s.dimension.getD 0
    · simp only [query, hV, hR, hrp, hfe, Bool.false_eq_true, if_false,
        ite_false]
      rw [hsel, exceptBind_ok, if_pos hcond, if_pos hcond]
    · simp only [query, hV, hR, hrp, hfe, Bool.false_eq_true, if_false,
        ite_false]
      rw [hsel, exceptBind_ok, if_neg hcond, if_neg hcond]
      have hok : ∀ p ∈ faissSearch (sel V ((List.range R.length).filter
          (fun i => f.contains (R.getD i "")))) q k,
          ∃ y, npGetE ((List.range R.length).filter
            (fun i => f.contains (R.getD i ""))) p.2 = .ok y := by
        intro p hp
        rcases faissSearch_mem hp with rfl | ⟨i, hi, rfl⟩
        · obtain ⟨a, _, ha⟩ := npGetE_neg_one_ok _ hne'
          exact ⟨a, ha⟩
        · rw [hsublen] at hi
          obtain ⟨a, _, ha⟩ := npGetE_nat_ok _ i hi
          exact ⟨a, ha⟩
      rw [← bind_assoc, exceptMapM_comp_of_ok _ _ _ hok]
      congr 1
      apply exceptMapM_congr
      intro p hp
      have hix : p.2 = -1 ∨ ∃ i : ℕ, p.2 = (i : ℤ) ∧
          i < ((List.range R.length).filter
            (fun i => f.contains (R.getD i ""))).length := by
        rcases faissSearch_mem hp with rfl | ⟨i, hi, rfl⟩
        · exact Or.inl rfl
        · rw [hsublen] at hi
          exact Or.inr ⟨i, rfl, hi⟩
      exact (npGetE_sel_comp R _ hvalidR hne' p.2 hix).symm

theorem C8_filter_restricts_pool_witness :
    query ((add initState [[1], [2], [3]] ["r1", "r2", "r1"]
        ["hello", "world", "test"] []).1) [2] 2 (some ["r1"]) =
      query (restrictPool ((add initState [[1], [2], [3]] ["r1", "r2", "r1"]
        ["hello", "world", "test"] []).1) ["r1"]) [2] 2 none :=
  (C8_filter_restricts_pool _ [[1], [2], [3]] ["r1", "r2", "r1"]
      ["hello", "world", "test"] [2] 2 ["r1"] rfl rfl rfl rfl).2 (by decide)

end FluxGate
